import Mathlib

/-!
Verification of the line/column index of `linecol.go` (package jsonparser).

The Go source is embedded shallowly:
  * a byte blob is a `List Nat` (Go `[]byte`);
  * `decodeRune` follows Go's `utf8.DecodeRuneInString` (values, sizes and
    acceptance ranges of the standard decoder);
  * iterating over the runes of a string (Go `for index, rune := range sj`)
    is `findNewlinesGo`, with an explicit fuel equal to the byte length,
    which suffices because every decode step consumes at least one byte;
  * `sort.Search` is `searchGo` / `sortSearch`, the standard-library binary
    search loop, again with sufficient fuel;
  * a Go run-time panic (out-of-range slice index) is `Option.none`, so
    `OffsetToLineCol` returns `Option (Int × Int × Int)`: `none` models an
    aborted call, `some (line, bytecol, runecol)` a normal return.
The development-time `fmt.Printf` / `DebugDump` tracing has no effect on the
returned values and is not modelled.
-/

/-- Is `b` a UTF-8 continuation byte (Go's default accept range 0x80..0xBF)? -/
def cont (b : Nat) : Bool := decide (0x80 ≤ b ∧ b < 0xC0)

/-- Accept range for the second byte of a three-byte sequence,
following Go's `utf8.acceptRanges` table. -/
def accept3 (b0 b1 : Nat) : Bool :=
  if b0 = 0xE0 then decide (0xA0 ≤ b1 ∧ b1 < 0xC0)
  else if b0 = 0xED then decide (0x80 ≤ b1 ∧ b1 < 0xA0)
  else cont b1

/-- Accept range for the second byte of a four-byte sequence,
following Go's `utf8.acceptRanges` table. -/
def accept4 (b0 b1 : Nat) : Bool :=
  if b0 = 0xF0 then decide (0x90 ≤ b1 ∧ b1 < 0xC0)
  else if b0 = 0xF4 then decide (0x80 ≤ b1 ∧ b1 < 0x90)
  else cont b1

/-- Go's `utf8.DecodeRuneInString` on the nonempty string `b0 :: rest`:
returns the decoded rune value and its byte size.  Invalid or truncated
sequences decode to `RuneError` (0xFFFD) with size 1, exactly as in Go. -/
def decodeRune (b0 : Nat) (rest : List Nat) : Nat × Nat :=
  if b0 < 0x80 then (b0, 1)
  else if b0 < 0xC2 then (0xFFFD, 1)
  else if b0 < 0xE0 then
    if 1 ≤ rest.length ∧ cont (rest.getD 0 0) = true then
      ((b0 % 0x20) * 0x40 + rest.getD 0 0 % 0x40, 2)
    else (0xFFFD, 1)
  else if b0 < 0xF0 then
    if 2 ≤ rest.length ∧ accept3 b0 (rest.getD 0 0) = true ∧ cont (rest.getD 1 0) = true then
      ((b0 % 0x10) * 0x1000 + (rest.getD 0 0 % 0x40) * 0x40 + rest.getD 1 0 % 0x40, 3)
    else (0xFFFD, 1)
  else if b0 < 0xF5 then
    if 3 ≤ rest.length ∧ accept4 b0 (rest.getD 0 0) = true ∧ cont (rest.getD 1 0) = true ∧
        cont (rest.getD 2 0) = true then
      ((b0 % 0x8) * 0x40000 + (rest.getD 0 0 % 0x40) * 0x1000 + (rest.getD 1 0 % 0x40) * 0x40 +
        rest.getD 2 0 % 0x40, 4)
    else (0xFFFD, 1)
  else (0xFFFD, 1)

/-- Go's `utf8.RuneCountInString`, iterated with fuel: one count per decode
step.  Fuel equal to the byte length suffices (each step eats ≥ 1 byte). -/
def runeCountGo : Nat → List Nat → Nat
  | 0, _ => 0
  | _ + 1, [] => 0
  | fuel + 1, b :: rest =>
    runeCountGo fuel (rest.drop ((decodeRune b rest).2 - 1)) + 1

/-- `utf8.RuneCountInString` on a byte list. -/
def runeCount (bs : List Nat) : Nat := runeCountGo bs.length bs

/-- The body of `FindNewlines`: Go's `for index, rune := range sj` loop,
recording the byte index of every decoded rune equal to `\n`.
`idx` is the current byte index; fuel = remaining byte length suffices. -/
def findNewlinesGo : Nat → List Nat → Nat → List Nat
  | 0, _, _ => []
  | _ + 1, [], _ => []
  | fuel + 1, b :: rest, idx =>
    let d := decodeRune b rest
    let tail := findNewlinesGo fuel (rest.drop (d.2 - 1)) (idx + d.2)
    if d.1 = 10 then idx :: tail else tail

/-- `LineIndex` from linecol.go: the blob and the newline positions. -/
structure LineIndex where
  JsonBlob : List Nat
  NewlinePos : List Nat
  deriving Repr, DecidableEq

/-- `(*LineIndex).FindNewlines`: recompute `NewlinePos` by ranging over the
runes of the blob and recording the byte offset of each newline. -/
def FindNewlines (li : LineIndex) : LineIndex :=
  { li with NewlinePos := findNewlinesGo li.JsonBlob.length li.JsonBlob 0 }

/-- `NewLineIndex`: build a `LineIndex` over `json` and populate it. -/
def NewLineIndex (json : List Nat) : LineIndex :=
  FindNewlines { JsonBlob := json, NewlinePos := [] }

/-- The loop of Go's `sort.Search`: binary search on `[i, j)` for the first
index where `f` is true (for monotone `f`).  Fuel `n` suffices since the
interval shrinks every iteration. -/
def searchGo : Nat → Nat → Nat → (Nat → Bool) → Nat
  | 0, i, _, _ => i
  | fuel + 1, i, j, f =>
    if i < j then
      let m := (i + j) / 2
      if f m then searchGo fuel i m f else searchGo fuel (m + 1) j f
    else i

/-- Go's `sort.Search n f`. -/
def sortSearch (n : Nat) (f : Nat → Bool) : Nat := searchGo n 0 n f

/-- `(*LineIndex).bytePosToRunePos`: the rune position of `offset` on the
zero-based line `linenoz`.  `none` models a Go panic: the index access
`li.NewlinePos[linenoz-1]` or the slice `li.JsonBlob[beg : offset+1]` being
out of range. -/
def bytePosToRunePos (li : LineIndex) (linenoz : Nat) (offset : Int) : Option Int :=
  ((if 0 < linenoz then (li.NewlinePos[linenoz - 1]?).map (· + 1) else some 0 :
      Option Nat)).bind
    fun beg =>
      if (beg : Int) ≤ offset + 1 ∧ offset + 1 ≤ (li.JsonBlob.length : Int) then
        some ((runeCount ((li.JsonBlob.take (offset + 1).toNat).drop beg) : Int) - 1)
      else none

/-- `(*LineIndex).OffsetToLineCol`: line, byte column and rune column of a
byte offset, all zero-based; `(-1, -1, -1)` when the offset is out of
bounds.  `none` models a Go panic; the only reachable panic is the access
`li.NewlinePos[srch-1]` when the binary search returns `srch = 0`. -/
def OffsetToLineCol (li : LineIndex) (offset : Int) : Option (Int × Int × Int) :=
  if offset ≥ (li.JsonBlob.length : Int) ∨ offset < 0 then
    some (-1, -1, -1)
  else if offset = 0 then
    some (0, 0, 0)
  else
    let n := li.NewlinePos.length
    if n = 0 then
      (bytePosToRunePos li 0 offset).map fun rc => (0, offset, rc)
    else if offset ≥ ((li.NewlinePos.getD (n - 1) 0 : Nat) : Int) then
      (bytePosToRunePos li n offset).map fun rc =>
        ((n : Int), offset - (((li.NewlinePos.getD (n - 1) 0 : Nat) : Int) + 1), rc)
    else
      let srch := sortSearch n fun i => decide (offset < ((li.NewlinePos.getD i 0 : Nat) : Int))
      if srch = 0 then
        none
      else
        let linestart : Int := ((li.NewlinePos.getD (srch - 1) 0 : Nat) : Int) + 1
        (bytePosToRunePos li srch offset).map fun rc =>
          ((srch : Int), offset - linestart, rc)

/-- The start byte of the zero-based line `l` of the index: one past the
previous terminator, or 0 for the first line. -/
def lineStart (li : LineIndex) (l : Nat) : Nat :=
  if l = 0 then 0 else li.NewlinePos.getD (l - 1) 0 + 1

/-- The bytes of line `l` from its start up to and including `offset`:
the slice `li.JsonBlob[lineStart l : offset+1]`. -/
def lineSlice (li : LineIndex) (l : Nat) (offset : Int) : List Nat :=
  (li.JsonBlob.take (offset + 1).toNat).drop (lineStart li l)

/-- Total number of extra (continuation) bytes consumed beyond the first
byte of each decoded character, over the decode steps of `bs`. -/
def extraGo : Nat → List Nat → Nat
  | 0, _ => 0
  | _ + 1, [] => 0
  | fuel + 1, b :: rest =>
    let s := (decodeRune b rest).2
    extraGo fuel (rest.drop (s - 1)) + (s - 1)

/-- Extra continuation bytes of the multi-byte characters of `bs`. -/
def extraBytes (bs : List Nat) : Nat := extraGo bs.length bs

/-- Does some decode step of `bs` consume a multi-byte character? -/
def hasMultibyteGo : Nat → List Nat → Bool
  | 0, _ => false
  | _ + 1, [] => false
  | fuel + 1, b :: rest =>
    let s := (decodeRune b rest).2
    (decide (2 ≤ s)) || hasMultibyteGo fuel (rest.drop (s - 1))

/-- Does `bs` contain a multi-byte character? -/
def hasMultibyte (bs : List Nat) : Bool := hasMultibyteGo bs.length bs

/-! ### Properties of the UTF-8 decoder -/

lemma decodeRune_size_pos (b0 : Nat) (rest : List Nat) : 1 ≤ (decodeRune b0 rest).2 := by
  unfold decodeRune
  split_ifs <;> simp

lemma decodeRune_size_le (b0 : Nat) (rest : List Nat) :
    (decodeRune b0 rest).2 ≤ rest.length + 1 := by
  unfold decodeRune
  split_ifs with h1 h2 h3 h4 h5 h6 h7 h8 <;> simp <;> omega

lemma decodeRune_fst_ten (b0 : Nat) (rest : List Nat)
    (h : (decodeRune b0 rest).1 = 10) : b0 = 10 := by
  unfold decodeRune at h
  split_ifs at h with h1 h2 h3 h4 h5 h6 h7 h8 <;> simp at h <;> try omega
  · obtain ⟨hl, ha, hc⟩ := h6
    unfold accept3 at ha
    split_ifs at ha with e1 e2 <;> simp [cont] at ha <;> omega
  · obtain ⟨hl, ha, hc2, hc3⟩ := h8
    unfold accept4 at ha
    split_ifs at ha with e1 e2 <;> simp [cont] at ha <;> omega

lemma decodeRune_nil_size (b0 : Nat) : (decodeRune b0 []).2 = 1 := by
  unfold decodeRune
  split_ifs <;> simp_all

/-! ### Invariants of the newline scan -/

lemma findNewlinesGo_mem :
    ∀ (fuel : Nat) (bs : List Nat) (idx p : Nat), p ∈ findNewlinesGo fuel bs idx →
      idx ≤ p ∧ bs[p - idx]? = some 10 := by
  intro fuel
  induction fuel with
  | zero => intro bs idx p hp; simp [findNewlinesGo] at hp
  | succ fuel ih =>
    intro bs idx p hp
    match bs with
    | [] => simp [findNewlinesGo] at hp
    | b :: rest =>
      simp only [findNewlinesGo] at hp
      have hpos := decodeRune_size_pos b rest
      by_cases hten : (decodeRune b rest).1 = 10
      · rw [if_pos hten] at hp
        rcases List.mem_cons.mp hp with rfl | hp'
        · refine ⟨le_refl _, ?_⟩
          simp [decodeRune_fst_ten b rest hten]
        · obtain ⟨h1, h2⟩ := ih _ _ _ hp'
          rw [List.getElem?_drop] at h2
          constructor
          · omega
          · rw [show p - idx =
                ((decodeRune b rest).2 - 1 + (p - (idx + (decodeRune b rest).2))) + 1 by omega]
            rw [List.getElem?_cons_succ]
            exact h2
      · rw [if_neg hten] at hp
        obtain ⟨h1, h2⟩ := ih _ _ _ hp
        rw [List.getElem?_drop] at h2
        constructor
        · omega
        · rw [show p - idx =
              ((decodeRune b rest).2 - 1 + (p - (idx + (decodeRune b rest).2))) + 1 by omega]
          rw [List.getElem?_cons_succ]
          exact h2

lemma findNewlinesGo_sorted :
    ∀ (fuel : Nat) (bs : List Nat) (idx : Nat),
      List.Pairwise (· < ·) (findNewlinesGo fuel bs idx) := by
  intro fuel
  induction fuel with
  | zero => intro bs idx; simp [findNewlinesGo]
  | succ fuel ih =>
    intro bs idx
    match bs with
    | [] => simp [findNewlinesGo]
    | b :: rest =>
      simp only [findNewlinesGo]
      have hpos := decodeRune_size_pos b rest
      split
      · refine List.Pairwise.cons ?_ (ih _ _)
        intro q hq
        have := (findNewlinesGo_mem fuel _ _ q hq).1
        omega
      · exact ih _ _

/-! ### Rune counting versus byte counting -/

lemma runeCountGo_add_extraGo :
    ∀ (fuel : Nat) (bs : List Nat), bs.length ≤ fuel →
      runeCountGo fuel bs + extraGo fuel bs = bs.length := by
  intro fuel
  induction fuel with
  | zero =>
    intro bs h
    have : bs = [] := List.eq_nil_of_length_eq_zero (by omega)
    subst this; simp [runeCountGo, extraGo]
  | succ fuel ih =>
    intro bs h
    match bs with
    | [] => simp [runeCountGo, extraGo]
    | b :: rest =>
      simp only [runeCountGo, extraGo]
      have hpos := decodeRune_size_pos b rest
      have hle := decodeRune_size_le b rest
      have hlen : (rest.drop ((decodeRune b rest).2 - 1)).length ≤ fuel := by
        simp only [List.length_drop]
        simp only [List.length_cons] at h
        omega
      have := ih _ hlen
      simp only [List.length_drop] at this
      simp only [List.length_cons]
      omega

lemma hasMultibyteGo_extraGo :
    ∀ (fuel : Nat) (bs : List Nat), hasMultibyteGo fuel bs = true →
      1 ≤ extraGo fuel bs := by
  intro fuel
  induction fuel with
  | zero => intro bs h; simp [hasMultibyteGo] at h
  | succ fuel ih =>
    intro bs h
    match bs with
    | [] => simp [hasMultibyteGo] at h
    | b :: rest =>
      simp only [hasMultibyteGo, Bool.or_eq_true, decide_eq_true_eq] at h
      simp only [extraGo]
      rcases h with h | h
      · omega
      · have := ih _ h
        omega

lemma runeCount_add_extraBytes (bs : List Nat) :
    runeCount bs + extraBytes bs = bs.length :=
  runeCountGo_add_extraGo bs.length bs (le_refl _)

lemma hasMultibyte_extraBytes (bs : List Nat) (h : hasMultibyte bs = true) :
    1 ≤ extraBytes bs :=
  hasMultibyteGo_extraGo bs.length bs h

/-! ### The binary search of `sort.Search` -/

lemma searchGo_spec (f : Nat → Bool) :
    ∀ (fuel i j : Nat), j - i ≤ fuel → i ≤ j →
      (∀ a b, a ≤ b → b < j → f a = true → f b = true) →
      (∀ k, k < i → f k = false) →
      i ≤ searchGo fuel i j f ∧ searchGo fuel i j f ≤ j ∧
      (∀ k, k < searchGo fuel i j f → f k = false) ∧
      (searchGo fuel i j f < j → f (searchGo fuel i j f) = true) := by
  intro fuel
  induction fuel with
  | zero =>
    intro i j hfuel hij mono pre
    have : i = j := by omega
    subst this
    simp only [searchGo]
    exact ⟨le_refl _, le_refl _, pre, by omega⟩
  | succ fuel ih =>
    intro i j hfuel hij mono pre
    simp only [searchGo]
    by_cases hlt : i < j
    · rw [if_pos hlt]
      have hm1 : i ≤ (i + j) / 2 := by omega
      have hm2 : (i + j) / 2 < j := by omega
      by_cases hf : f ((i + j) / 2) = true
      · simp only [hf, if_pos]
        have := ih i ((i + j) / 2) (by omega) hm1
          (fun a b hab hb ha => mono a b hab (by omega) ha) pre
        obtain ⟨r1, r2, r3, r4⟩ := this
        refine ⟨r1, by omega, r3, ?_⟩
        intro hr
        rcases Nat.lt_or_ge (searchGo fuel i ((i + j) / 2) f) ((i + j) / 2) with h | h
        · exact r4 h
        · have : searchGo fuel i ((i + j) / 2) f = (i + j) / 2 := by omega
          rw [this]; exact hf
      · simp only [Bool.not_eq_true] at hf
        simp only [hf, Bool.false_eq_true, if_false]
        have pre' : ∀ k, k < (i + j) / 2 + 1 → f k = false := by
          intro k hk
          by_cases hki : k < i
          · exact pre k hki
          · by_contra hcon
            simp only [Bool.not_eq_false] at hcon
            have := mono k ((i + j) / 2) (by omega) (by omega) hcon
            rw [hf] at this
            exact Bool.false_ne_true this
        have := ih ((i + j) / 2 + 1) j (by omega) (by omega) mono pre'
        obtain ⟨r1, r2, r3, r4⟩ := this
        exact ⟨by omega, r2, r3, r4⟩
    · rw [if_neg hlt]
      have : i = j := by omega
      exact ⟨le_refl _, by omega, pre, by omega⟩

lemma sortSearch_le (n : Nat) (f : Nat → Bool)
    (mono : ∀ a b, a ≤ b → b < n → f a = true → f b = true) :
    sortSearch n f ≤ n :=
  (searchGo_spec f n 0 n (by omega) (by omega) mono (by omega)).2.1

lemma sortSearch_eq (n : Nat) (f : Nat → Bool) (i : Nat)
    (mono : ∀ a b, a ≤ b → b < n → f a = true → f b = true)
    (hi : i < n) (hfi : f i = true) (hmin : ∀ k, k < i → f k = false) :
    sortSearch n f = i := by
  unfold sortSearch
  obtain ⟨r1, r2, r3, r4⟩ := searchGo_spec f n 0 n (by omega) (by omega) mono (by omega)
  rcases Nat.lt_trichotomy (searchGo n 0 n f) i with h | h | h
  · have := hmin _ h
    have := r4 (by omega)
    simp_all
  · exact h
  · have := r3 i h
    simp_all

/-! ### Invariants of a built `LineIndex` -/

lemma NewLineIndex_JsonBlob (blob : List Nat) : (NewLineIndex blob).JsonBlob = blob := rfl

lemma NewLineIndex_NewlinePos (blob : List Nat) :
    (NewLineIndex blob).NewlinePos = findNewlinesGo blob.length blob 0 := rfl

lemma newlinePos_sorted (blob : List Nat) :
    List.Pairwise (· < ·) (NewLineIndex blob).NewlinePos :=
  findNewlinesGo_sorted blob.length blob 0

lemma newlinePos_mem (blob : List Nat) (p : Nat)
    (hp : p ∈ (NewLineIndex blob).NewlinePos) :
    p < blob.length ∧ blob[p]? = some 10 := by
  have h := findNewlinesGo_mem blob.length blob 0 p hp
  rw [Nat.sub_zero] at h
  exact ⟨(List.getElem?_eq_some.mp h.2).1, h.2⟩

lemma pairwise_getD_lt (l : List Nat) (h : List.Pairwise (· < ·) l) (a b : Nat)
    (hab : a < b) (hb : b < l.length) : l.getD a 0 < l.getD b 0 := by
  rw [List.getD_eq_getElem l 0 (by omega), List.getD_eq_getElem l 0 hb]
  exact List.pairwise_iff_getElem.mp h a b (by omega) hb hab

lemma pairwise_getD_le (l : List Nat) (h : List.Pairwise (· < ·) l) (a b : Nat)
    (hab : a ≤ b) (hb : b < l.length) : l.getD a 0 ≤ l.getD b 0 := by
  rcases Nat.eq_or_lt_of_le hab with rfl | hlt
  · exact le_refl _
  · exact le_of_lt (pairwise_getD_lt l h a b hlt hb)

lemma newlinePos_getD_mem (blob : List Nat) (i : Nat)
    (hi : i < (NewLineIndex blob).NewlinePos.length) :
    (NewLineIndex blob).NewlinePos.getD i 0 ∈ (NewLineIndex blob).NewlinePos := by
  rw [List.getD_eq_getElem _ 0 hi]
  exact List.getElem_mem hi

lemma newlinePos_getD_lt_length (blob : List Nat) (i : Nat)
    (hi : i < (NewLineIndex blob).NewlinePos.length) :
    (NewLineIndex blob).NewlinePos.getD i 0 < blob.length :=
  (newlinePos_mem blob _ (newlinePos_getD_mem blob i hi)).1

/-! ### Characterizing `bytePosToRunePos` -/

lemma lineStart_zero (li : LineIndex) : lineStart li 0 = 0 := rfl

lemma lineStart_pos (li : LineIndex) (l : Nat) (h : 0 < l) :
    lineStart li l = li.NewlinePos.getD (l - 1) 0 + 1 := by
  unfold lineStart
  rw [if_neg (by omega)]

lemma bytePosToRunePos_eq (li : LineIndex) (linenoz : Nat) (offset : Int)
    (hln : linenoz ≤ li.NewlinePos.length)
    (hbeg : ((lineStart li linenoz : Nat) : Int) ≤ offset + 1)
    (hlen : offset + 1 ≤ (li.JsonBlob.length : Int)) :
    bytePosToRunePos li linenoz offset =
      some ((runeCount (lineSlice li linenoz offset) : Int) - 1) := by
  unfold bytePosToRunePos
  by_cases h0 : 0 < linenoz
  · have hidx : linenoz - 1 < li.NewlinePos.length := by omega
    rw [if_pos h0, List.getElem?_eq_getElem hidx]
    simp only [Option.map_some', Option.some_bind]
    rw [lineStart_pos li linenoz h0, List.getD_eq_getElem _ 0 hidx] at hbeg
    rw [if_pos ⟨by exact_mod_cast hbeg, hlen⟩]
    unfold lineSlice
    rw [lineStart_pos li linenoz h0, List.getD_eq_getElem _ 0 hidx]
  · have h0' : linenoz = 0 := by omega
    subst h0'
    rw [if_neg h0]
    simp only [Option.some_bind]
    rw [lineStart_zero] at hbeg
    rw [if_pos ⟨by exact_mod_cast hbeg, hlen⟩]
    unfold lineSlice
    rw [lineStart_zero]

lemma bytePosToRunePos_some_inv (li : LineIndex) (linenoz : Nat) (offset : Int) (rc : Int)
    (h : bytePosToRunePos li linenoz offset = some rc) :
    (0 < linenoz → linenoz - 1 < li.NewlinePos.length) ∧
    ((lineStart li linenoz : Nat) : Int) ≤ offset + 1 ∧
    offset + 1 ≤ (li.JsonBlob.length : Int) ∧
    rc = (runeCount (lineSlice li linenoz offset) : Int) - 1 := by
  unfold bytePosToRunePos at h
  by_cases h0 : 0 < linenoz
  · rw [if_pos h0] at h
    rcases hidx : li.NewlinePos[linenoz - 1]? with _ | p
    · rw [hidx] at h; simp at h
    · rw [hidx] at h
      simp only [Option.map_some', Option.some_bind] at h
      obtain ⟨hlt, hp⟩ := List.getElem?_eq_some.mp hidx
      have hbeg : lineStart li linenoz = p + 1 := by
        rw [lineStart_pos li linenoz h0, List.getD_eq_getElem _ 0 hlt, hp]
      split_ifs at h with hcond
      · obtain ⟨hc1, hc2⟩ := hcond
        simp only [Option.some.injEq] at h
        refine ⟨fun _ => hlt, by rw [hbeg]; exact_mod_cast hc1, hc2, ?_⟩
        rw [← h]
        unfold lineSlice
        rw [hbeg]
  · have h0' : linenoz = 0 := by omega
    subst h0'
    rw [if_neg h0] at h
    simp only [Option.some_bind] at h
    split_ifs at h with hcond
    · obtain ⟨hc1, hc2⟩ := hcond
      simp only [Option.some.injEq] at h
      refine ⟨by omega, by rw [lineStart_zero]; exact_mod_cast hc1, hc2, ?_⟩
      rw [← h]
      unfold lineSlice
      rw [lineStart_zero]

/-! ### Branch lemmas for `OffsetToLineCol` -/

lemma offsetToLineCol_out (li : LineIndex) (offset : Int)
    (h : offset ≥ (li.JsonBlob.length : Int) ∨ offset < 0) :
    OffsetToLineCol li offset = some (-1, -1, -1) := by
  unfold OffsetToLineCol
  rw [if_pos h]

lemma offsetToLineCol_at_zero (li : LineIndex) (h : 0 < li.JsonBlob.length) :
    OffsetToLineCol li 0 = some (0, 0, 0) := by
  unfold OffsetToLineCol
  rw [if_neg (by omega), if_pos rfl]

lemma offsetToLineCol_no_newlines (li : LineIndex) (offset : Int)
    (h0 : 0 < offset) (hlen : offset < (li.JsonBlob.length : Int))
    (hn : li.NewlinePos.length = 0) :
    OffsetToLineCol li offset =
      (bytePosToRunePos li 0 offset).map fun rc => (0, offset, rc) := by
  unfold OffsetToLineCol
  rw [if_neg (by omega), if_neg (by omega)]
  simp [hn]

lemma offsetToLineCol_last (li : LineIndex) (offset : Int)
    (h0 : 0 < offset) (hlen : offset < (li.JsonBlob.length : Int))
    (hn : li.NewlinePos.length ≠ 0)
    (hge : offset ≥ ((li.NewlinePos.getD (li.NewlinePos.length - 1) 0 : Nat) : Int)) :
    OffsetToLineCol li offset =
      (bytePosToRunePos li li.NewlinePos.length offset).map fun rc =>
        ((li.NewlinePos.length : Int),
          offset - (((li.NewlinePos.getD (li.NewlinePos.length - 1) 0 : Nat) : Int) + 1), rc) := by
  unfold OffsetToLineCol
  rw [if_neg (by omega), if_neg (by omega)]
  simp only [if_neg hn, if_pos hge]

lemma offsetToLineCol_search (li : LineIndex) (offset : Int)
    (h0 : 0 < offset) (hlen : offset < (li.JsonBlob.length : Int))
    (hn : li.NewlinePos.length ≠ 0)
    (hlt : ¬ offset ≥ ((li.NewlinePos.getD (li.NewlinePos.length - 1) 0 : Nat) : Int)) :
    OffsetToLineCol li offset =
      (if sortSearch li.NewlinePos.length
          (fun i => decide (offset < ((li.NewlinePos.getD i 0 : Nat) : Int))) = 0 then none
       else
        (bytePosToRunePos li
            (sortSearch li.NewlinePos.length
              (fun i => decide (offset < ((li.NewlinePos.getD i 0 : Nat) : Int)))) offset).map
          fun rc =>
            ((sortSearch li.NewlinePos.length
                (fun i => decide (offset < ((li.NewlinePos.getD i 0 : Nat) : Int))) : Int),
              offset - (((li.NewlinePos.getD
                (sortSearch li.NewlinePos.length
                  (fun i => decide (offset < ((li.NewlinePos.getD i 0 : Nat) : Int))) - 1) 0 :
                  Nat) : Int) + 1), rc)) := by
  unfold OffsetToLineCol
  rw [if_neg (by omega), if_neg (by omega)]
  simp only [if_neg hn, if_neg hlt]

/-! ### Further shared helpers -/

lemma searchPred_mono (blob : List Nat) (offset : Int) :
    ∀ a b, a ≤ b → b < (NewLineIndex blob).NewlinePos.length →
      decide (offset < (((NewLineIndex blob).NewlinePos.getD a 0 : Nat) : Int)) = true →
      decide (offset < (((NewLineIndex blob).NewlinePos.getD b 0 : Nat) : Int)) = true := by
  intro a b hab hb ha
  simp only [decide_eq_true_eq] at ha ⊢
  have := pairwise_getD_le _ (newlinePos_sorted blob) a b hab hb
  omega

lemma newlinePos_eq_nil_of_no_newline (blob : List Nat) (h : ∀ b ∈ blob, b ≠ 10) :
    (NewLineIndex blob).NewlinePos = [] := by
  by_contra hne
  obtain ⟨p, hp⟩ := List.exists_mem_of_ne_nil _ hne
  have hsome := (newlinePos_mem blob p hp).2
  obtain ⟨hl2, heq⟩ := List.getElem?_eq_some.mp hsome
  exact h blob[p] (List.getElem_mem hl2) heq

lemma lineSlice_at_nl (li : LineIndex) (l : Nat) (p : Nat)
    (h : lineStart li l = p + 1) : lineSlice li l (p : Int) = [] := by
  unfold lineSlice
  rw [h]
  apply List.drop_eq_nil_of_le
  rw [List.length_take]
  have h1 : (((p : Nat) : Int) + 1).toNat = p + 1 := by omega
  rw [h1]
  omega

lemma bytePos_at_nl (li : LineIndex) (l p : Nat)
    (hln : l ≤ li.NewlinePos.length) (hstart : lineStart li l = p + 1)
    (hplen : p < li.JsonBlob.length) :
    bytePosToRunePos li l (p : Int) = some (-1) := by
  rw [bytePosToRunePos_eq li l _ hln (by rw [hstart]; push_cast; omega)
    (by omega)]
  rw [lineSlice_at_nl li l p hstart]
  norm_num [runeCount, runeCountGo]

lemma extraBytes_singleton (b : Nat) : extraBytes [b] = 0 := by
  simp [extraBytes, extraGo, decodeRune_nil_size]

lemma hasMultibyte_singleton (b : Nat) : hasMultibyte [b] = false := by
  simp [hasMultibyte, hasMultibyteGo, decodeRune_nil_size]

lemma colDiff (li : LineIndex) (l : Nat) (offset : Int)
    (hbeg : ((lineStart li l : Nat) : Int) ≤ offset + 1)
    (hlen : offset + 1 ≤ (li.JsonBlob.length : Int)) :
    (offset - ((lineStart li l : Nat) : Int)) - ((runeCount (lineSlice li l offset) : Int) - 1) =
      (extraBytes (lineSlice li l offset) : Int) := by
  have hsum := runeCount_add_extraBytes (lineSlice li l offset)
  have hslen : (lineSlice li l offset).length = (offset + 1).toNat - lineStart li l := by
    unfold lineSlice
    rw [List.length_drop, List.length_take]
    omega
  omega

/-! ### The claims -/

/-- C1: the claim demands that for a multi-line blob and an offset strictly
inside the first line (`0 < offset <` first terminator offset) the query
returns a result; in the code the binary search returns `srch = 0` and the
access `li.NewlinePos[srch-1]` is out of range, so the call aborts
(modelled as `none`).  The code's own doc comment promises a `-1` line
value for invalid offsets and a line/column result otherwise, so this is a
code bug, proved here as: every such query aborts. -/
theorem C1_first_line_aborts (blob : List Nat) (offset : Int)
    (hne : (NewLineIndex blob).NewlinePos ≠ [])
    (h0 : 0 < offset)
    (hlt : offset < (((NewLineIndex blob).NewlinePos.getD 0 0 : Nat) : Int)) :
    OffsetToLineCol (NewLineIndex blob) offset = none := by
  have hn : (NewLineIndex blob).NewlinePos.length ≠ 0 := by
    intro h
    exact hne (List.eq_nil_of_length_eq_zero h)
  have hmem0 := newlinePos_getD_mem blob 0 (by omega)
  have hlen0 := newlinePos_getD_lt_length blob 0 (by omega)
  have hofflen : offset < ((NewLineIndex blob).JsonBlob.length : Int) := by
    rw [NewLineIndex_JsonBlob]
    omega
  have hle := pairwise_getD_le _ (newlinePos_sorted blob) 0
    ((NewLineIndex blob).NewlinePos.length - 1) (by omega) (by omega)
  rw [offsetToLineCol_search _ _ h0 hofflen hn (by omega)]
  rw [if_pos]
  exact sortSearch_eq _ _ 0 (searchPred_mono blob offset) (by omega)
    (by simpa using hlt) (by omega)

/-- C1 witness: on the blob `"ab\ncd"` the offset 1 lies strictly inside
the first line and the query aborts. -/
theorem C1_first_line_aborts_witness :
    OffsetToLineCol (NewLineIndex [97, 98, 10, 99, 100]) 1 = none :=
  C1_first_line_aborts [97, 98, 10, 99, 100] 1 (by decide) (by decide) (by decide)

/-- C2 counterexample: the code numbers lines and columns from 0, so at
offset 0 of the non-empty blob `"a"` it returns `(0, 0, 0)`, not the
`(1, 1, 1)` demanded by the claim. -/
theorem C2_zero_cex : OffsetToLineCol (NewLineIndex [97]) 0 ≠ some (1, 1, 1) := by decide

/-- C2 amended: for any non-empty blob, locating offset 0 returns line 0,
byte column 0, rune column 0 (the code's numbering is zero-based). -/
theorem C2_zero_offset (blob : List Nat) (h : blob ≠ []) :
    OffsetToLineCol (NewLineIndex blob) 0 = some (0, 0, 0) :=
  offsetToLineCol_at_zero _ (by rw [NewLineIndex_JsonBlob]; exact List.length_pos.mpr h)

/-- C2 witness: offset 0 on the blob `"a"`. -/
theorem C2_zero_offset_witness : OffsetToLineCol (NewLineIndex [97]) 0 = some (0, 0, 0) :=
  C2_zero_offset [97] (by decide)

/-- C10: `OffsetToLineCol` is deterministic; two calls with the same offset
on the same index return the same result. -/
theorem C10_deterministic (blob : List Nat) (offset : Int)
    (r1 r2 : Option (Int × Int × Int))
    (h1 : r1 = OffsetToLineCol (NewLineIndex blob) offset)
    (h2 : r2 = OffsetToLineCol (NewLineIndex blob) offset) : r1 = r2 := by
  rw [h1, h2]

/-- C10 witness: two identical queries at offset 1 of `"a\n"` agree. -/
theorem C10_deterministic_witness :
    OffsetToLineCol (NewLineIndex [97, 10]) 1 = OffsetToLineCol (NewLineIndex [97, 10]) 1 :=
  C10_deterministic [97, 10] 1 _ _ rfl rfl

/-- C7: `NewLineIndex` (via `FindNewlines`) is total, and on every blob
produces a strictly increasing terminator list whose entries all point at a
`\n` byte inside the blob; a newline-free blob (in particular an empty one)
yields an empty terminator list.  Strict increase gives sortedness and the
absence of duplicates. -/
theorem C7_build_invariants (blob : List Nat) :
    List.Pairwise (· < ·) (NewLineIndex blob).NewlinePos ∧
    (∀ p ∈ (NewLineIndex blob).NewlinePos, p < blob.length ∧ blob[p]? = some 10) ∧
    ((∀ b ∈ blob, b ≠ 10) → (NewLineIndex blob).NewlinePos = []) :=
  ⟨newlinePos_sorted blob, fun p hp => newlinePos_mem blob p hp,
    newlinePos_eq_nil_of_no_newline blob⟩

/-- C7 witness: the invariants instantiated on the blob `"a\nb"`. -/
theorem C7_build_invariants_witness :
    List.Pairwise (· < ·) (NewLineIndex [97, 10, 98]).NewlinePos ∧
    (∀ p ∈ (NewLineIndex [97, 10, 98]).NewlinePos,
      p < ([97, 10, 98] : List Nat).length ∧ ([97, 10, 98] : List Nat)[p]? = some 10) ∧
    ((∀ b ∈ ([97, 10, 98] : List Nat), b ≠ 10) → (NewLineIndex [97, 10, 98]).NewlinePos = []) :=
  C7_build_invariants [97, 10, 98]

/-- C3 counterexample: on the blob `"a"` (length 1) the end-of-input offset
1 does not succeed as the claim demands; the code rejects `offset ==
len(blob)` and returns the out-of-range sentinel `(-1, -1, -1)`. -/
theorem C3_end_offset_cex : OffsetToLineCol (NewLineIndex [97]) 1 = some (-1, -1, -1) := by
  decide

/-- C3 amended: the out-of-range sentinel `(-1, -1, -1)` is returned
exactly for offsets outside the half-open range `[0, len(blob))`; in
particular offsets `-1`, `len(blob)` and `len(blob)+1` all yield it, and no
in-range offset does. -/
theorem C3_out_of_range_iff (blob : List Nat) (offset : Int) :
    OffsetToLineCol (NewLineIndex blob) offset = some (-1, -1, -1) ↔
      (offset < 0 ∨ (blob.length : Int) ≤ offset) := by
  constructor
  · intro h
    by_contra hout
    push_neg at hout
    obtain ⟨ho1, ho2⟩ := hout
    have hlen : offset < ((NewLineIndex blob).JsonBlob.length : Int) := by
      rw [NewLineIndex_JsonBlob]; omega
    rcases eq_or_lt_of_le ho1 with hz | hpos
    · rw [← hz] at h
      rw [offsetToLineCol_at_zero _ (by rw [NewLineIndex_JsonBlob]; omega)] at h
      exact absurd h (by decide)
    · by_cases hn0 : (NewLineIndex blob).NewlinePos.length = 0
      · rw [offsetToLineCol_no_newlines _ _ hpos hlen hn0] at h
        rw [Option.map_eq_some'] at h
        obtain ⟨rc, hrc, heq⟩ := h
        simp [Prod.ext_iff] at heq
      · by_cases hge : offset ≥ (((NewLineIndex blob).NewlinePos.getD
            ((NewLineIndex blob).NewlinePos.length - 1) 0 : Nat) : Int)
        · rw [offsetToLineCol_last _ _ hpos hlen hn0 hge] at h
          rw [Option.map_eq_some'] at h
          obtain ⟨rc, hrc, heq⟩ := h
          simp [Prod.ext_iff] at heq
        · rw [offsetToLineCol_search _ _ hpos hlen hn0 hge] at h
          split_ifs at h with hs
          rw [Option.map_eq_some'] at h
          obtain ⟨rc, hrc, heq⟩ := h
          simp [Prod.ext_iff] at heq
  · intro h
    exact offsetToLineCol_out _ _ (by rw [NewLineIndex_JsonBlob]; omega)

/-- C5 counterexample: on the newline-free blob `"ab"` of length 2, the
offset 2 does not return line 1 and byte column 3 as the claim demands; it
is rejected as out of range with the sentinel `(-1, -1, -1)`. -/
theorem C5_end_cex : OffsetToLineCol (NewLineIndex [97, 98]) 2 = some (-1, -1, -1) := by
  decide

/-- C5 amended: for a newline-free blob of byte length `n`, the query at
offset `n` yields the out-of-range sentinel, and every offset `0 < o < n`
succeeds with line 0 and byte column `o` (zero-based). -/
theorem C5_no_newline_blob (blob : List Nat) (h : ∀ b ∈ blob, b ≠ 10) :
    OffsetToLineCol (NewLineIndex blob) (blob.length : Int) = some (-1, -1, -1) ∧
    (∀ offset : Int, 0 < offset → offset < (blob.length : Int) →
      ∃ rc : Int, OffsetToLineCol (NewLineIndex blob) offset = some (0, offset, rc)) := by
  constructor
  · exact offsetToLineCol_out _ _ (by rw [NewLineIndex_JsonBlob]; omega)
  · intro offset h0 hlen
    have hnil := newlinePos_eq_nil_of_no_newline blob h
    have hn0 : (NewLineIndex blob).NewlinePos.length = 0 := by rw [hnil]; rfl
    rw [offsetToLineCol_no_newlines _ _ h0 (by rw [NewLineIndex_JsonBlob]; omega) hn0]
    rw [bytePosToRunePos_eq _ 0 offset (by omega) (by rw [lineStart_zero]; omega)
      (by rw [NewLineIndex_JsonBlob]; omega)]
    exact ⟨_, rfl⟩

/-- C5 witness: on the blob `"ab"`, offset 2 is rejected while offset 1
returns line 0, byte column 1. -/
theorem C5_no_newline_blob_witness :
    OffsetToLineCol (NewLineIndex [97, 98]) (([97, 98] : List Nat).length : Int) =
      some (-1, -1, -1) ∧
    ∃ rc : Int, OffsetToLineCol (NewLineIndex [97, 98]) 1 = some (0, 1, rc) :=
  ⟨(C5_no_newline_blob [97, 98] (by decide)).1,
    (C5_no_newline_blob [97, 98] (by decide)).2 1 (by decide) (by decide)⟩

/-- C6 counterexample: lines are numbered from 0 in the code.  On the blob
`"a"` (zero terminators) the valid offset 0 returns line 0, which is not in
the claimed range `[1, terminatorCount+1] = [1, 1]`. -/
theorem C6_range_cex :
    OffsetToLineCol (NewLineIndex [97]) 0 = some (0, 0, 0) ∧ ¬ (1 ≤ (0 : Int)) := by decide

/-- C6 amended: for every offset in `[0, len(blob)-1]` at which the query
returns a result, the line number lies in `[0, terminatorCount]` (the code
is zero-based and rejects `offset = len(blob)`). -/
theorem C6_line_range (blob : List Nat) (offset l b r : Int)
    (h0 : 0 ≤ offset) (hlen : offset < (blob.length : Int))
    (h : OffsetToLineCol (NewLineIndex blob) offset = some (l, b, r)) :
    0 ≤ l ∧ l ≤ ((NewLineIndex blob).NewlinePos.length : Int) := by
  have hlen' : offset < ((NewLineIndex blob).JsonBlob.length : Int) := by
    rw [NewLineIndex_JsonBlob]; omega
  rcases eq_or_lt_of_le h0 with hz | hpos
  · rw [← hz] at h
    rw [offsetToLineCol_at_zero _ (by rw [NewLineIndex_JsonBlob]; omega)] at h
    simp only [Option.some.injEq, Prod.mk.injEq] at h
    omega
  · by_cases hn0 : (NewLineIndex blob).NewlinePos.length = 0
    · rw [offsetToLineCol_no_newlines _ _ hpos hlen' hn0] at h
      rw [Option.map_eq_some'] at h
      obtain ⟨rc, hrc, heq⟩ := h
      simp only [Prod.mk.injEq] at heq
      omega
    · by_cases hge : offset ≥ (((NewLineIndex blob).NewlinePos.getD
          ((NewLineIndex blob).NewlinePos.length - 1) 0 : Nat) : Int)
      · rw [offsetToLineCol_last _ _ hpos hlen' hn0 hge] at h
        rw [Option.map_eq_some'] at h
        obtain ⟨rc, hrc, heq⟩ := h
        simp only [Prod.mk.injEq] at heq
        omega
      · rw [offsetToLineCol_search _ _ hpos hlen' hn0 hge] at h
        have hsle := sortSearch_le (NewLineIndex blob).NewlinePos.length
          (fun i => decide (offset < (((NewLineIndex blob).NewlinePos.getD i 0 : Nat) : Int)))
          (searchPred_mono blob offset)
        split_ifs at h with hs
        rw [Option.map_eq_some'] at h
        obtain ⟨rc, hrc, heq⟩ := h
        simp only [Prod.mk.injEq] at heq
        omega

/-- C6 witness: offset 0 on `"a"` returns line 0, within `[0, 0]`. -/
theorem C6_line_range_witness :
    0 ≤ (0 : Int) ∧ (0 : Int) ≤ ((NewLineIndex [97]).NewlinePos.length : Int) :=
  C6_line_range [97] 0 0 0 0 (by decide) (by decide) (by decide)

/-- C8 counterexample: offset 0 is in range and points at the `\n` byte of
the blob `"\na"`, yet the query returns `(0, 0, 0)` (the `offset == 0` fast
path), not column values `-1` as the claim demands for every terminator
offset. -/
theorem C8_terminator_cex :
    0 ∈ (NewLineIndex [10, 97]).NewlinePos ∧
    OffsetToLineCol (NewLineIndex [10, 97]) 0 = some (0, 0, 0) := by decide

/-- C8 amended: for every positive in-range offset pointing exactly at a
`\n` byte (an element of `NewlinePos`), the query returns byte column `-1`
and rune column `-1` — the same column values as the out-of-bounds
sentinel — together with a non-negative line value. -/
theorem C8_terminator_columns (blob : List Nat) (p : Nat)
    (hmem : p ∈ (NewLineIndex blob).NewlinePos) (hp : 0 < p) :
    ∃ l : Int, OffsetToLineCol (NewLineIndex blob) (p : Int) = some (l, -1, -1) ∧ 0 ≤ l := by
  obtain ⟨k, hk, hpk⟩ := List.mem_iff_getElem.mp hmem
  have hplen : p < blob.length := (newlinePos_mem blob p hmem).1
  have hn : (NewLineIndex blob).NewlinePos.length ≠ 0 := by omega
  have hgdk : (NewLineIndex blob).NewlinePos.getD k 0 = p := by
    rw [List.getD_eq_getElem _ 0 hk, hpk]
  have hlen' : (p : Int) < ((NewLineIndex blob).JsonBlob.length : Int) := by
    rw [NewLineIndex_JsonBlob]; exact_mod_cast hplen
  by_cases hlast : k = (NewLineIndex blob).NewlinePos.length - 1
  · -- the offset is the last terminator: the `offset >= NewlinePos[n-1]` branch
    have hgd : (NewLineIndex blob).NewlinePos.getD
        ((NewLineIndex blob).NewlinePos.length - 1) 0 = p := by rw [← hlast]; exact hgdk
    rw [offsetToLineCol_last _ _ (by exact_mod_cast hp) hlen' hn (by rw [hgd])]
    rw [bytePos_at_nl _ _ p (by omega)
      (by rw [lineStart_pos _ _ (by omega), hgd]) (by rw [NewLineIndex_JsonBlob]; omega)]
    refine ⟨((NewLineIndex blob).NewlinePos.length : Int), ?_, by positivity⟩
    rw [Option.map_some']
    have harith : (p : Int) - ((((NewLineIndex blob).NewlinePos.getD
        ((NewLineIndex blob).NewlinePos.length - 1) 0 : Nat) : Int) + 1) = -1 := by
      rw [hgd]; omega
    rw [harith]
  · -- an interior terminator: the binary-search branch with srch = k + 1
    have hklt : k < (NewLineIndex blob).NewlinePos.length - 1 := by omega
    have hlt : ¬ (p : Int) ≥ (((NewLineIndex blob).NewlinePos.getD
        ((NewLineIndex blob).NewlinePos.length - 1) 0 : Nat) : Int) := by
      have := pairwise_getD_lt _ (newlinePos_sorted blob) k
        ((NewLineIndex blob).NewlinePos.length - 1) hklt (by omega)
      rw [hgdk] at this
      omega
    rw [offsetToLineCol_search _ _ (by exact_mod_cast hp) hlen' hn hlt]
    have hsrch : sortSearch (NewLineIndex blob).NewlinePos.length
        (fun i => decide ((p : Int) < (((NewLineIndex blob).NewlinePos.getD i 0 : Nat) : Int)))
        = k + 1 := by
      apply sortSearch_eq _ _ _ (searchPred_mono blob (p : Int)) (by omega)
      · have := pairwise_getD_lt _ (newlinePos_sorted blob) k (k + 1) (by omega) (by omega)
        rw [hgdk] at this
        simp only [decide_eq_true_eq]
        exact_mod_cast this
      · intro j hj
        have := pairwise_getD_le _ (newlinePos_sorted blob) j k (by omega) (by omega)
        rw [hgdk] at this
        simp only [decide_eq_false_iff_not, not_lt]
        exact_mod_cast this
    rw [hsrch]
    rw [if_neg (by omega)]
    have hgd1 : (NewLineIndex blob).NewlinePos.getD (k + 1 - 1) 0 = p := by
      simpa using hgdk
    rw [bytePos_at_nl _ _ p (by omega)
      (by rw [lineStart_pos _ _ (by omega), hgd1]) (by rw [NewLineIndex_JsonBlob]; omega)]
    refine ⟨((k + 1 : Nat) : Int), ?_, by positivity⟩
    rw [Option.map_some']
    have harith : (p : Int) - ((((NewLineIndex blob).NewlinePos.getD (k + 1 - 1) 0 : Nat) :
        Int) + 1) = -1 := by
      rw [hgd1]; omega
    rw [harith]

/-- C8 witness: on the blob `"a\nb"`, the offset 1 points at the newline
and the query returns line 1 with byte and rune columns `-1`. -/
theorem C8_terminator_columns_witness :
    ∃ l : Int, OffsetToLineCol (NewLineIndex [97, 10, 98]) ((1 : Nat) : Int) =
      some (l, -1, -1) ∧ 0 ≤ l :=
  C8_terminator_columns [97, 10, 98] 1 (by decide) (by decide)

/-- C4 counterexample: on the blob `"a\nb\nc\n"` (terminators at 1, 3, 5)
with offset 2, the smallest index `i` with `offset <= terminatorOffsets[i]`
is 1, so the claim demands line `i+1 = 2` and byte column `offset -
(terminatorOffsets[0]+1) + 1 = 1`; the code instead returns line 1 and
byte column 0 (strict predicate `offset < NewlinePos[i]`, zero-based
results, no `+1`). -/
theorem C4_search_cex :
    OffsetToLineCol (NewLineIndex [97, 10, 98, 10, 99, 10]) 2 = some (1, 0, 0) ∧
    ¬ ((1 : Int) = 2 ∧ (0 : Int) = 1) := by decide

/-- C4 amended: for an offset that is neither 0, nor on a blob with zero
terminators, nor at-or-past the last terminator, the code binary-searches
for the smallest index `i` with `offset < terminatorOffsets[i]` (strict)
and, when `i > 0`, returns line `i` (not `i+1`) and byte column `offset -
lineStart` (not `offset - lineStart + 1`), with `lineStart =
terminatorOffsets[i-1] + 1`; when `i = 0` the lookup aborts instead. -/
theorem C4_search_branch (blob : List Nat) (offset : Int) (i : Nat)
    (h0 : 0 < offset)
    (hi : i < (NewLineIndex blob).NewlinePos.length)
    (hfi : offset < (((NewLineIndex blob).NewlinePos.getD i 0 : Nat) : Int))
    (hmin : ∀ k, k < i → ¬ offset < (((NewLineIndex blob).NewlinePos.getD k 0 : Nat) : Int))
    (hipos : 0 < i) :
    ∃ rc : Int, OffsetToLineCol (NewLineIndex blob) offset =
      some (((i : Nat) : Int),
        offset - ((((NewLineIndex blob).NewlinePos.getD (i - 1) 0 : Nat) : Int) + 1), rc) := by
  have hilen := newlinePos_getD_lt_length blob i hi
  have hlen' : offset < ((NewLineIndex blob).JsonBlob.length : Int) := by
    rw [NewLineIndex_JsonBlob]
    omega
  have hn : (NewLineIndex blob).NewlinePos.length ≠ 0 := by omega
  have hlast : ¬ offset ≥ (((NewLineIndex blob).NewlinePos.getD
      ((NewLineIndex blob).NewlinePos.length - 1) 0 : Nat) : Int) := by
    have := pairwise_getD_le _ (newlinePos_sorted blob) i
      ((NewLineIndex blob).NewlinePos.length - 1) (by omega) (by omega)
    omega
  rw [offsetToLineCol_search _ _ h0 hlen' hn hlast]
  have hsrch : sortSearch (NewLineIndex blob).NewlinePos.length
      (fun k => decide (offset < (((NewLineIndex blob).NewlinePos.getD k 0 : Nat) : Int)))
      = i := by
    apply sortSearch_eq _ _ _ (searchPred_mono blob offset) hi
      (by simpa using hfi)
    intro k hk
    simpa using hmin k hk
  rw [hsrch, if_neg (by omega)]
  have hprev : ¬ offset < (((NewLineIndex blob).NewlinePos.getD (i - 1) 0 : Nat) : Int) :=
    hmin (i - 1) (by omega)
  rw [bytePosToRunePos_eq _ i offset (by omega)
    (by rw [lineStart_pos _ _ hipos]; push_cast; omega) (by rw [NewLineIndex_JsonBlob]; omega)]
  rw [Option.map_some']
  exact ⟨_, rfl⟩

/-- C4 witness: blob `"a\nb\nc\n"`, offset 2, smallest index with
`2 < NewlinePos[i]` is `i = 1`: the result is line 1, byte column
`2 - (NewlinePos[0] + 1) = 0`. -/
theorem C4_search_branch_witness :
    ∃ rc : Int, OffsetToLineCol (NewLineIndex [97, 10, 98, 10, 99, 10]) 2 =
      some (((1 : Nat) : Int),
        2 - ((((NewLineIndex [97, 10, 98, 10, 99, 10]).NewlinePos.getD 0 0 : Nat) : Int) + 1),
        rc) :=
  C4_search_branch [97, 10, 98, 10, 99, 10] 2 1 (by decide) (by decide) (by decide)
    (by decide) (by decide)

lemma C9_core (li : LineIndex) (linenoz : Nat) (offset bc rc : Int)
    (hbc : bc = offset - ((lineStart li linenoz : Nat) : Int))
    (hrc : rc = (runeCount (lineSlice li linenoz offset) : Int) - 1)
    (hbeg : ((lineStart li linenoz : Nat) : Int) ≤ offset + 1)
    (hlen : offset + 1 ≤ (li.JsonBlob.length : Int)) :
    bc - rc = (extraBytes (lineSlice li linenoz offset) : Int) ∧
    (hasMultibyte (lineSlice li linenoz offset) = true → rc < bc) := by
  have hd := colDiff li linenoz offset hbeg hlen
  constructor
  · omega
  · intro hm
    have := hasMultibyte_extraBytes _ hm
    omega

/-- C9: whenever the query returns a non-sentinel result, the byte column
exceeds the rune column by exactly the number of extra continuation bytes
of the multi-byte characters on the matched line up to the offset
(inclusive); in particular, if the line prefix contains a multi-byte
character, the byte column is strictly greater than the rune column. -/
theorem C9_multibyte_gap (blob : List Nat) (offset : Int) (l bc rc : Int)
    (hres : OffsetToLineCol (NewLineIndex blob) offset = some (l, bc, rc))
    (hl : 0 ≤ l) :
    bc - rc = (extraBytes (lineSlice (NewLineIndex blob) l.toNat offset) : Int) ∧
    (hasMultibyte (lineSlice (NewLineIndex blob) l.toNat offset) = true → rc < bc) := by
  by_cases hout : offset ≥ ((NewLineIndex blob).JsonBlob.length : Int) ∨ offset < 0
  · rw [offsetToLineCol_out _ _ hout] at hres
    simp only [Option.some.injEq, Prod.mk.injEq] at hres
    omega
  · push_neg at hout
    obtain ⟨ho1, ho2⟩ := hout
    rcases eq_or_lt_of_le ho2 with hz | hpos
    · rw [← hz] at hres ⊢
      rw [offsetToLineCol_at_zero _ (by omega)] at hres
      simp only [Option.some.injEq, Prod.mk.injEq] at hres
      obtain ⟨hl0, hbc0, hrc0⟩ := hres
      have hlen0 : 0 < (NewLineIndex blob).JsonBlob.length := by omega
      obtain ⟨b, rest, hblob⟩ : ∃ b rest, (NewLineIndex blob).JsonBlob = b :: rest := by
        rcases hcase : (NewLineIndex blob).JsonBlob with _ | ⟨b, rest⟩
        · rw [hcase] at hlen0; simp at hlen0
        · exact ⟨b, rest, rfl⟩
      have hslice : lineSlice (NewLineIndex blob) l.toNat 0 = [b] := by
        unfold lineSlice
        rw [hblob, ← hl0]
        simp [lineStart]
      rw [hslice, extraBytes_singleton, hasMultibyte_singleton]
      norm_num
      omega
    · by_cases hn0 : (NewLineIndex blob).NewlinePos.length = 0
      · rw [offsetToLineCol_no_newlines _ _ hpos ho1 hn0] at hres
        rw [Option.map_eq_some'] at hres
        obtain ⟨rc0, hrc0, heq⟩ := hres
        simp only [Prod.mk.injEq] at heq
        obtain ⟨hl0, hbc0, hrc1⟩ := heq
        obtain ⟨-, hbeg, hlen2, hrcv⟩ := bytePosToRunePos_some_inv _ _ _ _ hrc0
        have hlt : l.toNat = 0 := by omega
        rw [hlt]
        refine C9_core _ 0 offset bc rc ?_ (by rw [← hrc1]; exact hrcv) hbeg hlen2
        rw [lineStart_zero]
        push_cast
        omega
      · by_cases hge : offset ≥ (((NewLineIndex blob).NewlinePos.getD
            ((NewLineIndex blob).NewlinePos.length - 1) 0 : Nat) : Int)
        · rw [offsetToLineCol_last _ _ hpos ho1 hn0 hge] at hres
          rw [Option.map_eq_some'] at hres
          obtain ⟨rc0, hrc0, heq⟩ := hres
          simp only [Prod.mk.injEq] at heq
          obtain ⟨hl0, hbc0, hrc1⟩ := heq
          obtain ⟨-, hbeg, hlen2, hrcv⟩ := bytePosToRunePos_some_inv _ _ _ _ hrc0
          have hlt : l.toNat = (NewLineIndex blob).NewlinePos.length := by
            rw [← hl0]
            exact Int.toNat_natCast _
          rw [hlt]
          refine C9_core _ _ offset bc rc ?_ (by rw [← hrc1]; exact hrcv) hbeg hlen2
          rw [lineStart_pos _ _ (by omega)]
          push_cast
          omega
        · rw [offsetToLineCol_search _ _ hpos ho1 hn0 hge] at hres
          generalize hG : sortSearch (NewLineIndex blob).NewlinePos.length
            (fun i => decide (offset <
              (((NewLineIndex blob).NewlinePos.getD i 0 : Nat) : Int))) = s at hres
          split_ifs at hres with hs
          rw [Option.map_eq_some'] at hres
          obtain ⟨rc0, hrc0, heq⟩ := hres
          simp only [Prod.mk.injEq] at heq
          obtain ⟨hl0, hbc0, hrc1⟩ := heq
          obtain ⟨-, hbeg, hlen2, hrcv⟩ := bytePosToRunePos_some_inv _ _ _ _ hrc0
          have hlt : l.toNat = s := by
            rw [← hl0]
            exact Int.toNat_natCast _
          rw [hlt]
          refine C9_core _ _ offset bc rc ?_ (by rw [← hrc1]; exact hrcv) hbeg hlen2
          rw [lineStart_pos _ _ (by omega)]
          push_cast
          omega

/-- C9 witness: on the blob `"hél"` (`é` is the two bytes 0xC3 0xA9), the
offset 3 returns byte column 3 and rune column 2; the gap of 1 equals the
extra continuation byte of `é`, and the multi-byte test yields the strict
inequality. -/
theorem C9_multibyte_gap_witness :
    (3 : Int) - 2 =
      (extraBytes (lineSlice (NewLineIndex [104, 195, 169, 108]) (0 : Int).toNat 3) : Int) ∧
    (hasMultibyte (lineSlice (NewLineIndex [104, 195, 169, 108]) (0 : Int).toNat 3) = true →
      (2 : Int) < 3) :=
  C9_multibyte_gap [104, 195, 169, 108] 3 0 3 2 (by decide) (by decide)
